import Mathlib

/-!
Verification of the FinalDecky text-to-flashcard parsing engine.

The Python sources `src/parsing.py` (imported by the application via
`from parsing import parse_free_text` in `src/app.py`) and the alternative
implementation `src/fd_parsing.py` are shallowly embedded below: strings are
`List Char`, each Python helper becomes a Lean function of the same shape, and
the anchored regular expressions of the source are modelled by explicit
scanning functions.  The pure string utilities `normalize_dashes` and
`collapse_spaces` live in the repository's `utils` module, which is not under
`src/`; they are modelled from the spec and marked as such.
-/

namespace FinalDecky

abbrev Chars := List Char

/-- Whitespace as recognised by Python `str.strip` / the regex class `\s`
(ASCII whitespace plus the common Unicode space code points). -/
def isWSChar (c : Char) : Bool :=
  c = ' ' || c = '\t' || c = '\n' || c = '\r' || c = '\u000B' || c = '\u000C' ||
  c = '\u001C' || c = '\u001D' || c = '\u001E' || c = '\u001F' ||
  c = '\u0085' || c = '\u00A0' || c = '\u2028' || c = '\u2029' || c = '\u3000'

/-- Line boundaries recognised by Python `str.splitlines`. -/
def isBreakChar (c : Char) : Bool :=
  c = '\n' || c = '\r' || c = '\u000B' || c = '\u000C' ||
  c = '\u001C' || c = '\u001D' || c = '\u001E' ||
  c = '\u0085' || c = '\u2028' || c = '\u2029'

/-- The three dash code points stripped by `.lstrip('-–—')`. -/
def isDashChar (c : Char) : Bool :=
  c = '-' || c = '–' || c = '—'

/-- Leading-whitespace removal, Python `str.lstrip()`. -/
def dropWS (l : Chars) : Chars := l.dropWhile isWSChar

/-- Trailing-whitespace removal, Python `str.rstrip()`. -/
def rstripL (l : Chars) : Chars := (l.reverse.dropWhile isWSChar).reverse

/-- Python `str.strip()`. -/
def stripL (l : Chars) : Chars := rstripL (dropWS l)

/-- Python `str.lstrip('-–—')`. -/
def lstripDashes (l : Chars) : Chars := l.dropWhile isDashChar

/-- Modelled from the spec: `collapse_spaces` from the repository's `utils`
module (imported by `parsing.py` and `fd_parsing.py` but not present under
`src/`).  Per the spec's flush contract, consecutive spaces collapse to a
single space while the blank-line paragraph marker (a double newline inside
the text) is preserved, so only runs of the space character are collapsed. -/
def collapseSpaces : Chars → Chars
  | [] => []
  | [c] => [c]
  | c :: d :: rest =>
      if c = ' ' && d = ' ' then collapseSpaces (d :: rest)
      else c :: collapseSpaces (d :: rest)

/-- Modelled from the spec: `normalize_dashes` from the repository's `utils`
module (not present under `src/`).  All en-dash and em-dash code points are
reduced to one canonical dash representation (the em dash); typed hyphens are
not altered. -/
def normalizeDashes (l : Chars) : Chars :=
  l.map (fun c => if c = '–' then '—' else c)

/-- The `\r\n` pairs of the input, which Python `str.splitlines` treats as a
single line break, are reduced to a single `\n` before splitting. -/
def fixCRLF : Chars → Chars
  | [] => []
  | '\r' :: '\n' :: rest => '\n' :: fixCRLF rest
  | c :: rest => c :: fixCRLF rest

/-- Python `str.splitlines` after `\r\n` reduction: every break character
terminates a line; a final unterminated segment is emitted only when
non-empty. -/
def splitlinesGo : Chars → Chars → List Chars
  | acc, [] => if acc = [] then [] else [acc.reverse]
  | acc, c :: rest =>
      if isBreakChar c then acc.reverse :: splitlinesGo [] rest
      else splitlinesGo (c :: acc) rest

/-- Python `str.splitlines`. -/
def splitlines (l : Chars) : List Chars := splitlinesGo [] (fixCRLF l)

/-- First index at which `p` holds. -/
def findIdxFrom (p : Char → Bool) : Chars → Option Nat
  | [] => none
  | c :: rest => if p c then some 0 else (findIdxFrom p rest).map (· + 1)

/-! ## Anchored regular expressions of `parsing.py` / `fd_parsing.py` -/

/-- `BULLET_RE = ^\s*[\-\*•]\s+`: on success, the remainder of the line after
the match (the greedy `\s*`/`\s+` runs are maximal). -/
def matchBullet (l : Chars) : Option Chars :=
  match dropWS l with
  | [] => none
  | c :: rest =>
      if c = '-' || c = '*' || c = '•' then
        match rest with
        | [] => none
        | d :: _ => if isWSChar d then some (dropWS rest) else none
      else none

/-- `NUMBERED_RE = ^\s*\d+[\.)]\s+`: on success, the remainder after the
match. -/
def matchNumbered (l : Chars) : Option Chars :=
  let l1 := dropWS l
  let ds := l1.takeWhile Char.isDigit
  let r1 := l1.dropWhile Char.isDigit
  if ds = [] then none
  else
    match r1 with
    | [] => none
    | p :: rest =>
        if p = '.' || p = ')' then
          match rest with
          | [] => none
          | d :: _ => if isWSChar d then some (dropWS rest) else none
        else none

/-- `_is_new_row_marker` of `parsing.py`. -/
def isNewRowMarker (l : Chars) : Bool :=
  (matchBullet l).isSome || (matchNumbered l).isSome

/-- `_strip_leading_marker` of `parsing.py`: the anchored bullet substitution
followed by the anchored numbered substitution. -/
def stripLeadingMarker (l : Chars) : Chars :=
  let l1 := (matchBullet l).getD l
  (matchNumbered l1).getD l1

/-- `_first_colon_outside_parens`: left-to-right scan tracking paren depth
(with `max(0, depth-1)` on `)`, which is Nat subtraction). -/
def firstColonOutsideParensGo : Chars → Nat → Nat → Option Nat
  | [], _, _ => none
  | c :: rest, i, depth =>
      if c = '(' then firstColonOutsideParensGo rest (i + 1) (depth + 1)
      else if c = ')' then firstColonOutsideParensGo rest (i + 1) (depth - 1)
      else if c = ':' && depth = 0 then some i
      else firstColonOutsideParensGo rest (i + 1) depth

def firstColonOutsideParens (l : Chars) : Option Nat :=
  firstColonOutsideParensGo l 0 0

/-- `SEP_SPACED_HYPHEN = \s-\s`: index of the start (the whitespace before
the hyphen) of the first match. -/
def firstSpacedHyphen : Chars → Option Nat
  | a :: b :: c :: rest =>
      if isWSChar a && b = '-' && isWSChar c then some 0
      else (firstSpacedHyphen (b :: c :: rest)).map (· + 1)
  | _ => none

def isEnEmChar (c : Char) : Bool := c = '–' || c = '—'

/-- `_first_en_em_or_spaced_hyphen` of `parsing.py`: the first en/em dash if
any (regardless of position), otherwise the first spaced hyphen. -/
def firstEnEmOrSpacedHyphen (l : Chars) : Option Nat :=
  match findIdxFrom isEnEmChar l with
  | some i => some i
  | none => firstSpacedHyphen l

/-- `DICT_RE = ^\s*([^()\n]+?)\s*\(([^)]+)\)\s+(.+)$` applied with
`re.match`.  The literal `\(` can only bind to the first `(` of the line
(nothing before it may contain a paren), `\)` to the first `)` after it, the
leading `\s*` is greedy, group 1 is lazy, and the trailing `\s+`/`(.+)`
backtrack by one character when the tail is all whitespace.  Lines handed to
this matcher contain no newline (they come from `splitlines`). -/
def dictMatch (l : Chars) : Option (Chars × Chars × Chars) :=
  match findIdxFrom (fun c => c = '(') l with
  | none => none
  | some p =>
      let pre := l.take p
      if pre.any (fun c => c = ')' || c = '\n') then none
      else if p = 0 then none
      else
        let w0 := (pre.takeWhile isWSChar).length
        let g1 :=
          if w0 = p then pre.drop (p - 1)
          else
            let e := p - (pre.reverse.takeWhile isWSChar).length
            (pre.drop w0).take (e - w0)
        if g1.any (fun c => c = '\n') then none
        else
          let afterP := l.drop (p + 1)
          match findIdxFrom (fun c => c = ')') afterP with
          | none => none
          | some q =>
              if q = 0 then none
              else
                let g2 := afterP.take q
                let t := afterP.drop (q + 1)
                let w := (t.takeWhile isWSChar).length
                if w = 0 then none
                else if w < t.length then some (g1, g2, t.drop w)
                else if 2 ≤ w then some (g1, g2, t.drop (t.length - 1))
                else none

/-! ## The application's parser: `parse_free_text` of `src/parsing.py` -/

/-- `_split_term_def` of `parsing.py`.  Priority: tab, colon outside parens,
en/em dash or spaced hyphen, dictionary pattern, whole line as term. -/
def splitTermDefPy (l : Chars) : Chars × Chars :=
  match findIdxFrom (fun c => c = '\t') l with
  | some i => (l.take i, l.drop (i + 1))
  | none =>
    match firstColonOutsideParens l with
    | some ci => (l.take ci, l.drop (ci + 1))
    | none =>
      match firstEnEmOrSpacedHyphen l with
      | some di => (l.take di, l.drop (di + 1))
      | none =>
        match dictMatch l with
        | some (g1, g2, g3) =>
            (stripL g1 ++ ' ' :: '(' :: stripL g2 ++ [')'], g3)
        | none => (l, [])

/-- The separator test of `parse_free_text` (line 97 of `parsing.py`). -/
def splitNeeded (l : Chars) : Bool :=
  (findIdxFrom (fun c => c = '\t') l).isSome ||
  (firstColonOutsideParens l).isSome ||
  (firstEnEmOrSpacedHyphen l).isSome ||
  (dictMatch l).isSome

/-- Accumulator state of `parse_free_text` in `parsing.py`. -/
structure PState where
  records : List (Chars × Chars)
  curTerm : Option Chars
  curDef : Option Chars
deriving DecidableEq, Repr

def initPState : PState := ⟨[], none, none⟩

/-- The term cleanup of `_flush`:
`collapse_spaces(cur_term.strip().lstrip('-–—').strip())`. -/
def flushTerm (t : Chars) : Chars :=
  collapseSpaces (stripL (lstripDashes (stripL t)))

/-- The definition cleanup of `_flush`:
`collapse_spaces((cur_def or "").strip())`. -/
def flushDef (d : Option Chars) : Chars :=
  collapseSpaces (stripL (d.getD []))

/-- `_flush` of `parsing.py`: append the cleaned record when a term is open,
then reset both fields. -/
def flushSt (st : PState) : PState :=
  match st.curTerm with
  | none => ⟨st.records, none, none⟩
  | some t => ⟨st.records ++ [(flushTerm t, flushDef st.curDef)], none, none⟩

/-- One iteration of the line loop of `parse_free_text` in `parsing.py`. -/
def stepLine (st : PState) (raw : Chars) : PState :=
  let line := stripL raw
  if line = [] then
    match st.curDef with
    | some d => ⟨st.records, st.curTerm, some (d ++ ['\n', '\n'])⟩
    | none => st
  else
    let isNew := isNewRowMarker line
    let content := if isNew then stripLeadingMarker line else line
    if isNew || st.curTerm.isNone || splitNeeded content then
      let st' := if st.curTerm.isSome then flushSt st else st
      let td := splitTermDefPy content
      ⟨st'.records, some td.1, some td.2⟩
    else
      let d := st.curDef.getD []
      ⟨st.records, st.curTerm, some (if d = [] then content else d ++ ' ' :: content)⟩

def runLines (st : PState) : List Chars → PState
  | [] => st
  | l :: ls => runLines (stepLine st l) ls

/-- The records produced by `parse_free_text` of `parsing.py` on a raw
character sequence: normalize dashes, split lines, rstrip each, run the
accumulator, flush the tail. -/
def parseRecords (text : Chars) : List (Chars × Chars) :=
  (flushSt (runLines initPState ((splitlines (normalizeDashes text)).map rstripL))).records

/-- The warning emitted for record `r` at 1-based row `i`
(`"Row {i} has an empty {'Front' if not f else 'Back'} field."`). -/
def warnFor (i : Nat) (r : Chars × Chars) : Option String :=
  if r.1 = [] then some ("Row " ++ toString i ++ " has an empty Front field.")
  else if r.2 = [] then some ("Row " ++ toString i ++ " has an empty Back field.")
  else none

/-- The validation pass of `parse_free_text`, starting at row `i`. -/
def warningsGo (i : Nat) : List (Chars × Chars) → List String
  | [] => []
  | r :: rs =>
      match warnFor i r with
      | some w => w :: warningsGo (i + 1) rs
      | none => warningsGo (i + 1) rs

def warningsFor (rs : List (Chars × Chars)) : List String := warningsGo 1 rs

/-- `parse_free_text` of `src/parsing.py`, the parser imported by the
application (`src/app.py`). -/
def parse_free_text (text : String) : List (String × String) × List String :=
  let rs := parseRecords text.data
  (rs.map (fun r => (String.mk r.1, String.mk r.2)), warningsFor rs)

/-! ## The alternative parser: `parse_free_text` of `src/fd_parsing.py` -/

/-- `first_sep_index` of `fd_parsing.py`: a tab wins outright; otherwise the
minimum over the first colon outside parens, the first en dash (or, only if
no en dash occurs, the first em dash — the loop over `EN_EM` breaks on the
first dash kind found), and the first plain hyphen. -/
def fdFirstSepIndex (l : Chars) : Option Nat :=
  match findIdxFrom (fun c => c = '\t') l with
  | some i => some i
  | none =>
    let cand : List Nat :=
      (firstColonOutsideParens l).toList ++
      (match findIdxFrom (fun c => c = '–') l with
       | some j => [j]
       | none => (findIdxFrom (fun c => c = '—') l).toList) ++
      (findIdxFrom (fun c => c = '-') l).toList
    match cand with
    | [] => none
    | c :: cs => some (cs.foldl min c)

/-- `split_term_def_line` of `fd_parsing.py`: dictionary pattern first, then
the first separator, then the whole line as term. -/
def fdSplitTermDefLine (l : Chars) : Chars × Chars :=
  match dictMatch l with
  | some (g1, g2, g3) =>
      (stripL g1 ++ ' ' :: '(' :: stripL g2 ++ [')'], stripL g3)
  | none =>
    match fdFirstSepIndex l with
    | some i => (stripL (lstripDashes (stripL (l.take i))), stripL (l.drop (i + 1)))
    | none => (stripL l, [])

/-- `looks_like_item_start` of `fd_parsing.py`. -/
def looksLikeItemStart (originalLine : Chars) : Bool :=
  let raw := stripL originalLine
  if raw = [] then false
  else if ((matchBullet raw).isSome || (matchNumbered raw).isSome) then true
  else
    match fdFirstSepIndex raw with
    | none => false
    | some i => decide (i ≤ max 40 (raw.length / 3))

/-- Accumulator state of `parse_free_text` in `fd_parsing.py`: the open term
and the list of definition fragments. -/
structure FState where
  records : List (Chars × Chars)
  curTerm : Option Chars
  curParts : List Chars
deriving DecidableEq, Repr

def initFState : FState := ⟨[], none, []⟩

/-- `flush` of `fd_parsing.py`: fragments whose strip is empty are dropped,
the rest are joined with single spaces, collapsed, and stripped. -/
def fdFlushDef (parts : List Chars) : Chars :=
  stripL (collapseSpaces (List.intercalate [' '] (parts.filter (fun p => !(stripL p).isEmpty))))

def fdFlush (st : FState) : FState :=
  match st.curTerm with
  | none => ⟨st.records, none, []⟩
  | some t => ⟨st.records ++ [(flushTerm t, fdFlushDef st.curParts)], none, []⟩

/-- One iteration of the line loop of `parse_free_text` in `fd_parsing.py`. -/
def fdStepLine (st : FState) (raw : Chars) : FState :=
  let line := stripL raw
  if line = [] then
    if st.curTerm.isSome then ⟨st.records, st.curTerm, st.curParts ++ [[]]⟩ else st
  else
    let content :=
      match matchBullet line with
      | some r => r
      | none => (matchNumbered line).getD line
    if looksLikeItemStart line then
      let st' := if st.curTerm.isSome then fdFlush st else st
      let td := fdSplitTermDefLine content
      ⟨st'.records, some td.1, if td.2 = [] then [] else [td.2]⟩
    else
      match st.curTerm with
      | none => ⟨st.records, some content, []⟩
      | some _ => ⟨st.records, st.curTerm, st.curParts ++ [content]⟩

def fdRunLines (st : FState) : List Chars → FState
  | [] => st
  | l :: ls => fdRunLines (fdStepLine st l) ls

/-- The records produced by `parse_free_text` of `fd_parsing.py`. -/
def fdParseRecords (text : Chars) : List (Chars × Chars) :=
  (fdFlush (fdRunLines initFState ((splitlines (normalizeDashes text)).map rstripL))).records

/-- `parse_free_text` of `src/fd_parsing.py` (not imported by the
application). -/
def fd_parse_free_text (text : String) : List (String × String) × List String :=
  let rs := fdParseRecords text.data
  (rs.map (fun r => (String.mk r.1, String.mk r.2)), warningsFor rs)

/-! ## Lemmas about the string utilities -/

theorem dropWS_eq_of_stripL_eq {l : Chars} (h : stripL l = l) : dropWS l = l := by
  have h1 : (dropWS l).length ≤ l.length := (List.dropWhile_suffix _).length_le
  have h2 : (stripL l).length ≤ (dropWS l).length := by
    have := (List.dropWhile_suffix isWSChar (l := (dropWS l).reverse)).length_le
    simpa [stripL, rstripL] using this
  have h3 : l.length ≤ (dropWS l).length := by
    conv_lhs => rw [← h]
    exact h2
  exact (List.dropWhile_suffix _).eq_of_length (Nat.le_antisymm h1 h3)

theorem rstripL_eq_of_stripL_eq {l : Chars} (h : stripL l = l) : rstripL l = l := by
  have hd := dropWS_eq_of_stripL_eq h
  unfold stripL at h
  rwa [hd] at h

theorem head_not_ws_of_dropWS_eq {c : Char} {m : Chars} (h : dropWS (c :: m) = c :: m) :
    isWSChar c = false := by
  by_contra hc
  have hc' : isWSChar c = true := by
    cases hph : isWSChar c with
    | false => exact absurd hph hc
    | true => rfl
  have : dropWS (c :: m) = dropWS m := by simp [dropWS, List.dropWhile_cons, hc']
  have hlen : (dropWS m).length ≤ m.length := (List.dropWhile_suffix _).length_le
  rw [this] at h
  have := congrArg List.length h
  simp at this
  omega

theorem head_not_ws_of_stripL_eq {c : Char} {m : Chars} (h : stripL (c :: m) = c :: m) :
    isWSChar c = false :=
  head_not_ws_of_dropWS_eq (dropWS_eq_of_stripL_eq h)

theorem last_not_ws_of_rstripL_eq {l : Chars} {c : Char} (h : rstripL l = l)
    (hc : l.getLast? = some c) : isWSChar c = false := by
  have hrev : l.reverse.head? = some c := by rw [List.head?_reverse]; exact hc
  obtain ⟨m, hm⟩ : ∃ m, l.reverse = c :: m := by
    cases hr : l.reverse with
    | nil => rw [hr] at hrev; simp at hrev
    | cons a as => rw [hr] at hrev; simp at hrev; exact ⟨as, by rw [hrev]⟩
  have h' : (l.reverse.dropWhile isWSChar) = l.reverse := by
    have := congrArg List.reverse h
    simpa [rstripL] using this
  rw [hm] at h'
  by_contra hcne
  have hc' : isWSChar c = true := by
    cases hph : isWSChar c with
    | false => exact absurd hph hcne
    | true => rfl
  rw [List.dropWhile_cons, if_pos hc'] at h'
  have hlen : (m.dropWhile isWSChar).length ≤ m.length := (List.dropWhile_suffix _).length_le
  have := congrArg List.length h'
  simp at this
  omega

theorem last_not_ws_of_stripL_eq {l : Chars} {c : Char} (h : stripL l = l)
    (hc : l.getLast? = some c) : isWSChar c = false :=
  last_not_ws_of_rstripL_eq (rstripL_eq_of_stripL_eq h) hc

theorem rstripL_eq_self_of_last {l : Chars}
    (h : ∀ c, l.getLast? = some c → isWSChar c = false) : rstripL l = l := by
  cases hr : l.reverse with
  | nil =>
      have : l = [] := by simpa using congrArg List.reverse hr
      simp [this, rstripL]
  | cons a as =>
      have ha : l.getLast? = some a := by
        rw [← List.head?_reverse, hr]; rfl
      have hna := h a ha
      have : rstripL l = (List.dropWhile isWSChar (a :: as)).reverse := by rw [rstripL, hr]
      rw [this, List.dropWhile_cons, if_neg (by simp [hna])]
      rw [← hr, List.reverse_reverse]

theorem stripL_eq_self_of_ends {l : Chars}
    (h1 : ∀ c, l.head? = some c → isWSChar c = false)
    (h2 : ∀ c, l.getLast? = some c → isWSChar c = false) : stripL l = l := by
  cases l with
  | nil => rfl
  | cons c m =>
      have hc := h1 c rfl
      have hdrop : dropWS (c :: m) = c :: m := by
        simp [dropWS, List.dropWhile_cons, hc]
      rw [stripL, hdrop]
      exact rstripL_eq_self_of_last h2

theorem head_not_ws_of_dropWS {l : Chars} {c : Char} {m : Chars}
    (h : dropWS l = c :: m) : isWSChar c = false := by
  induction l with
  | nil => simp [dropWS] at h
  | cons a as ih =>
      rw [dropWS, List.dropWhile_cons] at h
      split at h
      · exact ih (by simpa [dropWS] using h)
      · cases h
        rename_i hne
        simpa using hne

theorem rstripL_isPre (l : Chars) : ∃ t, l = rstripL l ++ t := by
  obtain ⟨t, ht⟩ := List.dropWhile_suffix (l := l.reverse) (p := isWSChar)
  refine ⟨t.reverse, ?_⟩
  have := congrArg List.reverse ht
  simpa [rstripL] using this.symm

theorem head?_rstripL {l : Chars} {c : Char} {m : Chars}
    (h : rstripL l = c :: m) : l.head? = some c := by
  obtain ⟨t, ht⟩ := rstripL_isPre l
  rw [ht, h]; rfl

theorem head_not_ws_of_stripL {l : Chars} {c : Char} {m : Chars}
    (h : stripL l = c :: m) : isWSChar c = false := by
  rw [stripL] at h
  have hh : (dropWS l).head? = some c := head?_rstripL h
  cases hd : dropWS l with
  | nil => rw [hd] at hh; simp at hh
  | cons a as =>
      rw [hd] at hh
      simp at hh
      rw [← hh]
      exact head_not_ws_of_dropWS hd

theorem last_not_ws_of_dropWhileRev {l : Chars} {c : Char}
    (h : (stripL l).getLast? = some c) : isWSChar c = false := by
  have hrev : (stripL l).reverse.head? = some c := by
    rw [List.head?_reverse]; exact h
  have : (stripL l).reverse = List.dropWhile isWSChar (dropWS l).reverse := by
    simp [stripL, rstripL]
  rw [this] at hrev
  cases hd : List.dropWhile isWSChar (dropWS l).reverse with
  | nil => rw [hd] at hrev; simp at hrev
  | cons a as =>
      rw [hd] at hrev
      simp at hrev
      rw [← hrev]
      exact head_not_ws_of_dropWS (l := (dropWS l).reverse) hd

theorem stripL_idem (l : Chars) : stripL (stripL l) = stripL l := by
  apply stripL_eq_self_of_ends
  · intro c hc
    cases hs : stripL l with
    | nil => rw [hs] at hc; simp at hc
    | cons a as =>
        rw [hs] at hc
        simp at hc
        rw [← hc]
        exact head_not_ws_of_stripL hs
  · intro c hc
    exact last_not_ws_of_dropWhileRev hc

theorem lstripDashes_eq_self {l : Chars}
    (h : ∀ c, l.head? = some c → isDashChar c = false) : lstripDashes l = l := by
  cases l with
  | nil => rfl
  | cons c m => simp [lstripDashes, List.dropWhile_cons, h c rfl]

/-- Structural induction stepping over two-element heads, matching the shape
of `collapseSpaces`. -/
def twoStepCases {P : Chars → Prop} (h0 : P []) (h1 : ∀ c, P [c])
    (h2 : ∀ c d rest, P (d :: rest) → P (c :: d :: rest)) : ∀ l, P l
  | [] => h0
  | [c] => h1 c
  | c :: d :: rest => h2 c d rest (twoStepCases h0 h1 h2 (d :: rest))

theorem head?_collapseSpaces (l : Chars) : (collapseSpaces l).head? = l.head? := by
  induction l using twoStepCases with
  | h0 => rfl
  | h1 c => rfl
  | h2 c d rest ih =>
      rw [collapseSpaces]
      split
      · rename_i hcd
        simp only [Bool.and_eq_true, decide_eq_true_eq] at hcd
        rw [ih]
        simp [hcd.1, hcd.2]
      · rfl

theorem collapseSpaces_ne_nil {l : Chars} (h : l ≠ []) : collapseSpaces l ≠ [] := by
  intro hc
  have := head?_collapseSpaces l
  rw [hc] at this
  cases l with
  | nil => exact h rfl
  | cons a as => simp at this

theorem getLast?_collapseSpaces (l : Chars) : (collapseSpaces l).getLast? = l.getLast? := by
  induction l using twoStepCases with
  | h0 => rfl
  | h1 c => rfl
  | h2 c d rest ih =>
      rw [collapseSpaces]
      split
      · rw [ih]
        simp
      · have hne : collapseSpaces (d :: rest) ≠ [] := collapseSpaces_ne_nil (by simp)
        rw [List.getLast?_cons, List.getLast?_cons]
        cases hcc : collapseSpaces (d :: rest) with
        | nil => exact absurd hcc hne
        | cons x xs =>
            have := ih
            rw [hcc] at this
            simp [List.getLast?_cons] at this ⊢
            exact this

theorem stripL_collapseSpaces_of {l : Chars} (h : stripL l = l) :
    stripL (collapseSpaces l) = collapseSpaces l := by
  apply stripL_eq_self_of_ends
  · intro c hc
    rw [head?_collapseSpaces] at hc
    cases l with
    | nil => simp at hc
    | cons a as =>
        simp at hc
        rw [← hc]
        exact head_not_ws_of_stripL (m := as) (by rw [h])
  · intro c hc
    rw [getLast?_collapseSpaces] at hc
    exact last_not_ws_of_stripL_eq h hc

theorem flushTerm_canon {f : Chars} (h1 : stripL f = f) (h2 : collapseSpaces f = f)
    (h3 : ∀ c, f.head? = some c → isDashChar c = false) : flushTerm f = f := by
  rw [flushTerm, h1, lstripDashes_eq_self h3, h1, h2]

theorem flushDef_canon {b : Chars} (h1 : stripL b = b) (h2 : collapseSpaces b = b) :
    flushDef (some b) = b := by
  simp [flushDef, h1, h2]

/-! ## Lemmas about the index searches -/

theorem findIdxFrom_eq_none {p : Char → Bool} {l : Chars}
    (h : ∀ c ∈ l, p c = false) : findIdxFrom p l = none := by
  induction l with
  | nil => rfl
  | cons c m ih =>
      rw [findIdxFrom, if_neg (by simp [h c (by simp)])]
      rw [ih (fun c hc => h c (by simp [hc]))]
      rfl

theorem findIdxFrom_append_cons {p : Char → Bool} {f : Chars} {x : Char} (r : Chars)
    (h : ∀ c ∈ f, p c = false) (hx : p x = true) :
    findIdxFrom p (f ++ x :: r) = some f.length := by
  induction f with
  | nil => simp [findIdxFrom, hx]
  | cons c m ih =>
      rw [List.cons_append, findIdxFrom, if_neg (by simp [h c (by simp)])]
      rw [ih (fun c hc => h c (by simp [hc]))]
      rfl

theorem findIdxFrom_spec {p : Char → Bool} {l : Chars} {i : Nat}
    (h : findIdxFrom p l = some i) : ∃ c, l.get? i = some c ∧ p c = true := by
  induction l generalizing i with
  | nil => simp [findIdxFrom] at h
  | cons c m ih =>
      rw [findIdxFrom] at h
      split at h
      · rename_i hp
        cases h
        exact ⟨c, rfl, hp⟩
      · cases hm : findIdxFrom p m with
        | none => rw [hm] at h; simp at h
        | some j =>
            rw [hm] at h
            simp at h
            obtain ⟨d, hd, hpd⟩ := ih hm
            exact ⟨d, by rw [← h]; simpa using hd, hpd⟩

/-! ## Lemmas about line splitting and normalization -/

theorem fixCRLF_cons_not_crlf {c : Char} {rest : Chars}
    (h : ∀ r', c = '\r' → rest = '\n' :: r' → False) :
    fixCRLF (c :: rest) = c :: fixCRLF rest := by
  rw [fixCRLF.eq_def]
  split
  · rename_i heq
    cases heq
  · rename_i r' heq
    rw [List.cons.injEq] at heq
    exact absurd heq (by intro hh; exact h r' hh.1 hh.2)
  · rename_i heq
    cases heq
    rfl

theorem fixCRLF_cons_of_ne {c : Char} (rest : Chars) (hc : c ≠ '\r') :
    fixCRLF (c :: rest) = c :: fixCRLF rest :=
  fixCRLF_cons_not_crlf (fun _ hc' _ => absurd hc' hc)

theorem fixCRLF_eq_self {l : Chars} (h : ∀ c ∈ l, c ≠ '\r') : fixCRLF l = l := by
  induction l with
  | nil => rfl
  | cons c rest ih =>
      rw [fixCRLF_cons_of_ne rest (h c (by simp)),
        ih (fun c hc => h c (by simp [hc]))]

theorem fixCRLF_append_newline {line : Chars} (rest : Chars)
    (h : ∀ c ∈ line, c ≠ '\r') :
    fixCRLF (line ++ '\n' :: rest) = line ++ '\n' :: fixCRLF rest := by
  induction line with
  | nil =>
      rw [List.nil_append, fixCRLF_cons_of_ne rest (by decide), List.nil_append]
  | cons c m ih =>
      rw [List.cons_append, fixCRLF_cons_of_ne _ (h c (by simp)),
        ih (fun c hc => h c (by simp [hc])), List.cons_append]

theorem mem_fixCRLF : ∀ {l : Chars} {c : Char}, c ∈ fixCRLF l → c ∈ l := by
  intro l
  induction l using fixCRLF.induct with
  | case1 => intro c h; simp [fixCRLF] at h
  | case2 rest ih =>
      intro c h
      rw [show fixCRLF ('\r' :: '\n' :: rest) = '\n' :: fixCRLF rest from rfl] at h
      rcases List.mem_cons.mp h with h1 | h1
      · simp [h1]
      · simp [List.mem_cons_of_mem _ (ih h1)]
  | case3 c rest hne ih =>
      intro c' h
      rw [fixCRLF_cons_not_crlf hne] at h
      rcases List.mem_cons.mp h with h1 | h1
      · simp [h1]
      · exact List.mem_cons_of_mem _ (ih h1)

theorem splitlinesGo_no_break {line : Chars} (h : ∀ c ∈ line, isBreakChar c = false) :
    ∀ acc, splitlinesGo acc line =
      if acc.reverse ++ line = [] then [] else [acc.reverse ++ line] := by
  induction line with
  | nil => intro acc; simp [splitlinesGo]
  | cons c m ih =>
      intro acc
      rw [splitlinesGo, if_neg (by simp [h c (by simp)])]
      rw [ih (fun c hc => h c (by simp [hc])) (c :: acc)]
      simp

theorem splitlinesGo_append_newline {line : Chars} (rest : Chars)
    (h : ∀ c ∈ line, isBreakChar c = false) :
    ∀ acc, splitlinesGo acc (line ++ '\n' :: rest) =
      (acc.reverse ++ line) :: splitlinesGo [] rest := by
  induction line with
  | nil =>
      intro acc
      rw [List.nil_append, splitlinesGo, if_pos (by rfl)]
      simp
  | cons c m ih =>
      intro acc
      rw [List.cons_append, splitlinesGo, if_neg (by simp [h c (by simp)])]
      rw [ih (fun c hc => h c (by simp [hc])) (c :: acc)]
      simp

theorem breakFree_not_cr {line : Chars} (h : ∀ c ∈ line, isBreakChar c = false) :
    ∀ c ∈ line, c ≠ '\r' := by
  intro c hc hcr
  have := h c hc
  rw [hcr] at this
  simp [isBreakChar] at this

theorem splitlines_serial_cons {line rest : Chars}
    (h : ∀ c ∈ line, isBreakChar c = false) :
    splitlines (line ++ '\n' :: rest) = line :: splitlines rest := by
  rw [splitlines, fixCRLF_append_newline rest (breakFree_not_cr h),
    splitlinesGo_append_newline (fixCRLF rest) h []]
  simp [splitlines]

theorem splitlines_single {line : Chars} (h : ∀ c ∈ line, isBreakChar c = false)
    (hne : line ≠ []) : splitlines line = [line] := by
  rw [splitlines, fixCRLF_eq_self (breakFree_not_cr h), splitlinesGo_no_break h []]
  simp [hne]

theorem mem_splitlinesGo {l' : Chars} : ∀ {l acc : Chars}, l' ∈ splitlinesGo acc l →
    ∀ c ∈ l', c ∈ acc ∨ c ∈ l := by
  intro l
  induction l with
  | nil =>
      intro acc h
      rw [splitlinesGo] at h
      split at h
      · simp at h
      · simp at h
        intro c hc
        rw [h] at hc
        simp at hc
        exact Or.inl hc
  | cons a m ih =>
      intro acc h
      rw [splitlinesGo] at h
      split at h
      · rcases List.mem_cons.mp h with h1 | h1
        · intro c hc
          rw [h1] at hc
          simp at hc
          exact Or.inl hc
        · intro c hc
          rcases ih h1 c hc with h2 | h2
          · simp at h2
          · right
            exact List.mem_cons_of_mem a h2
      · intro c hc
        rcases ih h c hc with h2 | h2
        · rcases List.mem_cons.mp h2 with h3 | h3
          · right; simp [h3]
          · exact Or.inl h3
        · right; simp [h2]

theorem mem_splitlines {l' : Chars} {l : Chars} (h : l' ∈ splitlines l) :
    ∀ c ∈ l', c ∈ l := by
  intro c hc
  rcases mem_splitlinesGo h c hc with h1 | h1
  · simp at h1
  · exact mem_fixCRLF h1

theorem normalizeDashes_eq_self {l : Chars} (h : ∀ c ∈ l, c ≠ '–') :
    normalizeDashes l = l := by
  rw [normalizeDashes]
  induction l with
  | nil => rfl
  | cons c m ih =>
      rw [List.map_cons, if_neg (h c (by simp)), ih (fun c hc => h c (by simp [hc]))]

theorem mem_normalizeDashes_ws {l : Chars} (h : ∀ c ∈ l, isWSChar c = true) :
    ∀ c ∈ normalizeDashes l, isWSChar c = true := by
  intro c hc
  rw [normalizeDashes] at hc
  obtain ⟨a, ha, hfa⟩ := List.mem_map.mp hc
  by_cases hd : a = '–'
  · rw [hd] at ha hfa
    have := h _ ha
    simp [isWSChar] at this
  · rw [if_neg hd] at hfa
    rw [← hfa]
    exact h a ha

theorem mem_rstripL {l : Chars} : ∀ c ∈ rstripL l, c ∈ l := by
  intro c hc
  obtain ⟨t, ht⟩ := rstripL_isPre l
  rw [ht]
  simp [hc]

theorem stripL_eq_nil_of_ws {l : Chars} (h : ∀ c ∈ l, isWSChar c = true) :
    stripL l = [] := by
  have hd : dropWS l = [] := List.dropWhile_eq_nil_iff.mpr h
  rw [stripL, hd]
  rfl

/-! ## Lemmas about the validation pass -/

theorem warningsGo_length_le (i : Nat) (rs : List (Chars × Chars)) :
    (warningsGo i rs).length ≤ rs.length := by
  induction rs generalizing i with
  | nil => simp [warningsGo]
  | cons r rs ih =>
      rw [warningsGo]
      cases warnFor i r with
      | none => simpa using Nat.le_succ_of_le (ih (i + 1))
      | some w => simpa using ih (i + 1)

theorem warningsGo_mem {w : String} (i : Nat) (rs : List (Chars × Chars))
    (h : w ∈ warningsGo i rs) :
    ∃ k, k < rs.length ∧
      (w = "Row " ++ toString (i + k) ++ " has an empty Front field." ∨
       w = "Row " ++ toString (i + k) ++ " has an empty Back field.") := by
  induction rs generalizing i with
  | nil => simp [warningsGo] at h
  | cons r rs ih =>
      rw [warningsGo] at h
      cases hw : warnFor i r with
      | none =>
          rw [hw] at h
          obtain ⟨k, hk, hk2⟩ := ih (i + 1) h
          exact ⟨k + 1, by simpa using hk, by
            have : i + 1 + k = i + (k + 1) := by omega
            rw [this] at hk2
            exact hk2⟩
      | some w' =>
          rw [hw] at h
          rcases List.mem_cons.mp h with h1 | h1
          · refine ⟨0, by simp, ?_⟩
            rw [warnFor] at hw
            split at hw
            · cases hw
              left
              rw [h1]
              simp
            · split at hw
              · cases hw
                right
                rw [h1]
                simp
              · simp at hw
          · obtain ⟨k, hk, hk2⟩ := ih (i + 1) h1
            exact ⟨k + 1, by simpa using hk, by
              have : i + 1 + k = i + (k + 1) := by omega
              rw [this] at hk2
              exact hk2⟩

theorem warningsGo_nil (i : Nat) (rs : List (Chars × Chars))
    (h : ∀ r ∈ rs, r.1 ≠ [] ∧ r.2 ≠ []) : warningsGo i rs = [] := by
  induction rs generalizing i with
  | nil => rfl
  | cons r rs ih =>
      rw [warningsGo]
      have hr := h r (by simp)
      rw [warnFor, if_neg hr.1, if_neg hr.2]
      exact ih (i + 1) (fun r hr => h r (by simp [hr]))

theorem firstSpacedHyphen_spec {l : Chars} {i : Nat}
    (h : firstSpacedHyphen l = some i) :
    ∃ a b c, l.get? i = some a ∧ l.get? (i + 1) = some b ∧ l.get? (i + 2) = some c ∧
      isWSChar a = true ∧ b = '-' ∧ isWSChar c = true := by
  induction l using twoStepCases generalizing i with
  | h0 => simp [firstSpacedHyphen] at h
  | h1 c => simp [firstSpacedHyphen] at h
  | h2 a d rest ih =>
      cases rest with
      | nil => simp [firstSpacedHyphen] at h
      | cons e rest' =>
          rw [firstSpacedHyphen] at h
          split at h
          · rename_i hcond
            simp only [Bool.and_eq_true, decide_eq_true_eq] at hcond
            cases h
            exact ⟨a, d, e, rfl, rfl, rfl, hcond.1.1, hcond.1.2, hcond.2⟩
          · cases hm : firstSpacedHyphen (d :: e :: rest') with
            | none => rw [hm] at h; simp at h
            | some j =>
                rw [hm] at h
                simp at h
                obtain ⟨x, y, z, hx, hy, hz, hwx, hyd, hwz⟩ := ih hm
                refine ⟨x, y, z, ?_, ?_, ?_, hwx, hyd, hwz⟩
                · rw [← h]; simpa using hx
                · rw [← h]; simpa using hy
                · rw [← h]; simpa using hz

/-! ## Lemmas about the accumulator of `parsing.py` -/

theorem flushSt_none {st : PState} (h : st.curTerm = none) :
    flushSt st = ⟨st.records, none, none⟩ := by
  rw [flushSt, h]

theorem flushSt_some {st : PState} {t : Chars} (h : st.curTerm = some t) :
    flushSt st = ⟨st.records ++ [(flushTerm t, flushDef st.curDef)], none, none⟩ := by
  rw [flushSt, h]

theorem stepLine_blank {st : PState} {raw : Chars} (h : stripL raw = []) :
    stepLine st raw = (match st.curDef with
      | some d => ⟨st.records, st.curTerm, some (d ++ ['\n', '\n'])⟩
      | none => st) := by
  rw [stepLine]
  simp only [h, if_pos rfl, if_true]

theorem stepLine_sep (st : PState) {raw line : Chars} (hline : stripL raw = line)
    (hne : line ≠ []) (hmk : isNewRowMarker line = false)
    (hsep : splitNeeded line = true) :
    stepLine st raw = ⟨(if st.curTerm.isSome then flushSt st else st).records,
      some (splitTermDefPy line).1, some (splitTermDefPy line).2⟩ := by
  rw [stepLine]
  simp only [hline, if_neg hne, hmk, hsep, Bool.false_or, Bool.or_true, if_pos rfl,
    Bool.false_eq_true, if_false, if_true]

theorem stepLine_cont (st : PState) {raw line : Chars} (hline : stripL raw = line)
    (hne : line ≠ []) (hmk : isNewRowMarker line = false)
    (hsep : splitNeeded line = false) (ht : st.curTerm.isSome = true) :
    stepLine st raw = ⟨st.records, st.curTerm,
      some (if st.curDef.getD [] = [] then line
            else st.curDef.getD [] ++ ' ' :: line)⟩ := by
  rw [stepLine]
  have hnone : st.curTerm.isNone = false := by
    cases hT : st.curTerm with
    | none => rw [hT] at ht; simp at ht
    | some t => rfl
  simp only [hline, if_neg hne, hmk, hsep, hnone, Bool.false_or, Bool.or_false,
    Bool.false_eq_true, if_false]

theorem stepLine_blank_idle {st : PState} {raw : Chars} (h : stripL raw = [])
    (hd : st.curDef = none) : stepLine st raw = st := by
  rw [stepLine_blank h, hd]

theorem runLines_blank {ls : List Chars} (h : ∀ l ∈ ls, stripL l = []) :
    runLines initPState ls = initPState := by
  induction ls with
  | nil => rfl
  | cons l ls ih =>
      rw [runLines, stepLine_blank_idle (h l (by simp)) rfl]
      exact ih (fun l hl => h l (by simp [hl]))

theorem splitTermDefPy_tab {l : Chars} {i : Nat}
    (h : findIdxFrom (fun c => c = '\t') l = some i) :
    splitTermDefPy l = (l.take i, l.drop (i + 1)) := by
  unfold splitTermDefPy
  rw [h]

theorem splitTermDefPy_colon {l : Chars} {ci : Nat}
    (htab : findIdxFrom (fun c => c = '\t') l = none)
    (h : firstColonOutsideParens l = some ci) :
    splitTermDefPy l = (l.take ci, l.drop (ci + 1)) := by
  unfold splitTermDefPy
  rw [htab, h]

theorem splitTermDefPy_enem {l : Chars} {i : Nat}
    (htab : findIdxFrom (fun c => c = '\t') l = none)
    (hcol : firstColonOutsideParens l = none)
    (henem : findIdxFrom isEnEmChar l = some i) :
    splitTermDefPy l = (l.take i, l.drop (i + 1)) := by
  unfold splitTermDefPy
  rw [htab, hcol]
  have : firstEnEmOrSpacedHyphen l = some i := by
    rw [firstEnEmOrSpacedHyphen, henem]
  rw [this]

/-! ## Canonical records and the serialization round trip -/

/-- The line `"{front}\t{back}"` serializing a record. -/
def recLine (r : Chars × Chars) : Chars := r.1 ++ '\t' :: r.2

/-- `"\n".join` of the serialized record lines. -/
def serializeRecs : List (Chars × Chars) → Chars
  | [] => []
  | [r] => recLine r
  | r :: s :: rs => recLine r ++ '\n' :: serializeRecs (s :: rs)

/-- A record in the canonical shape that survives the
serialize-then-reparse round trip: both halves non-empty, trimmed,
space-collapsed, dash-normalized and line-break-free; the front tab-free,
not starting with a dash, and the serialized line not matching a
bullet/numbered marker. -/
def CanonRecord (r : Chars × Chars) : Prop :=
  r.1 ≠ [] ∧ r.2 ≠ [] ∧ stripL r.1 = r.1 ∧ stripL r.2 = r.2 ∧
  collapseSpaces r.1 = r.1 ∧ collapseSpaces r.2 = r.2 ∧
  (∀ c ∈ r.1, c ≠ '\t') ∧ (∀ c ∈ r.1, c ≠ '–') ∧ (∀ c ∈ r.2, c ≠ '–') ∧
  (∀ c ∈ r.1, isBreakChar c = false) ∧ (∀ c ∈ r.2, isBreakChar c = false) ∧
  (∀ c ∈ r.1.take 1, isDashChar c = false) ∧
  isNewRowMarker (recLine r) = false

instance (r : Chars × Chars) : Decidable (CanonRecord r) := by
  unfold CanonRecord
  infer_instance

theorem canon_head_not_dash {r : Chars × Chars} (h : CanonRecord r) :
    ∀ c, r.1.head? = some c → isDashChar c = false := by
  intro c hc
  obtain ⟨-, -, -, -, -, -, -, -, -, -, -, h12, -⟩ := h
  cases hf : r.1 with
  | nil => rw [hf] at hc; simp at hc
  | cons a m =>
      rw [hf] at hc
      simp at hc
      apply h12
      rw [hf, ← hc]
      simp

theorem stripL_recLine {r : Chars × Chars} (h : CanonRecord r) :
    stripL (recLine r) = recLine r := by
  obtain ⟨h1, h2, h3, h4, -⟩ := h
  apply stripL_eq_self_of_ends
  · intro c hc
    cases hf : r.1 with
    | nil => exact absurd hf h1
    | cons a m =>
        rw [recLine, hf] at hc
        simp at hc
        rw [← hc]
        exact head_not_ws_of_stripL_eq (by rw [← hf, h3])
  · intro c hc
    rw [recLine, List.getLast?_append_of_ne_nil _ (by simp)] at hc
    have hsplit : ('\t' :: r.2 : Chars) = ['\t'] ++ r.2 := rfl
    rw [hsplit, List.getLast?_append_of_ne_nil _ h2] at hc
    exact last_not_ws_of_stripL_eq h4 hc

theorem rstripL_recLine {r : Chars × Chars} (h : CanonRecord r) :
    rstripL (recLine r) = recLine r :=
  rstripL_eq_of_stripL_eq (stripL_recLine h)

theorem flushSt_canon {recs : List (Chars × Chars)} {f b : Chars}
    (h : CanonRecord (f, b)) :
    flushSt ⟨recs, some f, some b⟩ = ⟨recs ++ [(f, b)], none, none⟩ := by
  have hhd := canon_head_not_dash h
  obtain ⟨-, -, h3, h4, h5, h6, -⟩ := h
  rw [flushSt_some rfl, flushTerm_canon h3 h5 hhd, flushDef_canon h4 h6]

theorem splitNeeded_recLine {r : Chars × Chars} (h : CanonRecord r) :
    splitNeeded (recLine r) = true := by
  obtain ⟨-, -, -, -, -, -, h7, -⟩ := h
  rw [splitNeeded, recLine,
    findIdxFrom_append_cons r.2 (fun c hc => by simp [h7 c hc]) (by simp)]
  rfl

theorem splitTermDefPy_recLine {r : Chars × Chars} (h : CanonRecord r) :
    splitTermDefPy (recLine r) = (r.1, r.2) := by
  obtain ⟨-, -, -, -, -, -, h7, -⟩ := h
  rw [recLine] at *
  rw [splitTermDefPy_tab
    (findIdxFrom_append_cons r.2 (fun c hc => by simp [h7 c hc]) (by simp))]
  rw [List.take_left]
  congr 1
  have hsplit : r.1 ++ '\t' :: r.2 = (r.1 ++ ['\t']) ++ r.2 := by simp
  have hlen : r.1.length + 1 = (r.1 ++ ['\t']).length := by simp
  rw [hsplit, hlen, List.drop_left]

theorem recLine_ne_nil (r : Chars × Chars) : recLine r ≠ [] := by
  rw [recLine]
  cases hf : r.1 <;> simp

theorem stepLine_recLine (st : PState) {r : Chars × Chars} (h : CanonRecord r) :
    stepLine st (recLine r) =
      ⟨(if st.curTerm.isSome then flushSt st else st).records, some r.1, some r.2⟩ := by
  have h13 : isNewRowMarker (recLine r) = false := h.2.2.2.2.2.2.2.2.2.2.2.2
  rw [stepLine_sep st (stripL_recLine h) (recLine_ne_nil r) h13 (splitNeeded_recLine h),
    splitTermDefPy_recLine h]

theorem runLines_recLines {rs : List (Chars × Chars)} (h : ∀ r ∈ rs, CanonRecord r) :
    ∀ (recs : List (Chars × Chars)) (f b : Chars), CanonRecord (f, b) →
    (flushSt (runLines ⟨recs, some f, some b⟩ (rs.map recLine))).records
      = recs ++ (f, b) :: rs := by
  induction rs with
  | nil =>
      intro recs f b hfb
      rw [List.map_nil, runLines, flushSt_canon hfb]
  | cons r rs ih =>
      intro recs f b hfb
      rw [List.map_cons, runLines, stepLine_recLine _ (h r (by simp))]
      rw [flushSt_canon hfb]
      have hrest := ih (fun r hr => h r (by simp [hr])) (recs ++ [(f, b)]) r.1 r.2
        (by simpa using h r (by simp))
      simp only [Option.isSome_some, if_true] at *
      rw [hrest]
      simp

theorem breakFree_recLine {r : Chars × Chars} (h : CanonRecord r) :
    ∀ c ∈ recLine r, isBreakChar c = false := by
  obtain ⟨-, -, -, -, -, -, -, -, -, h10, h11, -⟩ := h
  intro c hc
  rw [recLine] at hc
  rcases List.mem_append.mp hc with h1 | h1
  · exact h10 c h1
  · rcases List.mem_cons.mp h1 with h2 | h2
    · rw [h2]; rfl
    · exact h11 c h2

theorem splitlines_serializeRecs {rs : List (Chars × Chars)}
    (h : ∀ r ∈ rs, CanonRecord r) :
    (splitlines (serializeRecs rs)).map rstripL = rs.map recLine := by
  induction rs with
  | nil => rfl
  | cons r rs ih =>
      cases rs with
      | nil =>
          rw [serializeRecs,
            splitlines_single (breakFree_recLine (h r (by simp))) (recLine_ne_nil r)]
          rw [List.map_cons, List.map_nil, List.map_cons, List.map_nil,
            rstripL_recLine (h r (by simp))]
      | cons s rs' =>
          rw [serializeRecs,
            splitlines_serial_cons (breakFree_recLine (h r (by simp))),
            List.map_cons, List.map_cons, rstripL_recLine (h r (by simp)),
            ih (fun r hr => h r (List.mem_cons_of_mem _ hr))]

theorem mem_serializeRecs {c : Char} : ∀ {rs : List (Chars × Chars)},
    c ∈ serializeRecs rs → (∃ r ∈ rs, c ∈ r.1 ∨ c ∈ r.2) ∨ c = '\t' ∨ c = '\n'
  | [], h => by simp [serializeRecs] at h
  | [r], h => by
      rw [serializeRecs, recLine] at h
      rcases List.mem_append.mp h with h1 | h1
      · exact Or.inl ⟨r, by simp, Or.inl h1⟩
      · rcases List.mem_cons.mp h1 with h2 | h2
        · exact Or.inr (Or.inl h2)
        · exact Or.inl ⟨r, by simp, Or.inr h2⟩
  | r :: s :: rs, h => by
      rw [serializeRecs] at h
      rcases List.mem_append.mp h with h1 | h1
      · rw [recLine] at h1
        rcases List.mem_append.mp h1 with h2 | h2
        · exact Or.inl ⟨r, by simp, Or.inl h2⟩
        · rcases List.mem_cons.mp h2 with h3 | h3
          · exact Or.inr (Or.inl h3)
          · exact Or.inl ⟨r, by simp, Or.inr h3⟩
      · rcases List.mem_cons.mp h1 with h2 | h2
        · exact Or.inr (Or.inr h2)
        · rcases mem_serializeRecs h2 with h3 | h3
          · obtain ⟨r', hr', hm⟩ := h3
            exact Or.inl ⟨r', by simp [List.mem_cons.mp hr'], hm⟩
          · exact Or.inr h3

theorem normalizeDashes_serializeRecs {rs : List (Chars × Chars)}
    (h : ∀ r ∈ rs, CanonRecord r) :
    normalizeDashes (serializeRecs rs) = serializeRecs rs := by
  apply normalizeDashes_eq_self
  intro c hc
  rcases mem_serializeRecs hc with h1 | h1
  · obtain ⟨r, hr, hm⟩ := h1
    obtain ⟨-, -, -, -, -, -, -, h8, h9, -⟩ := h r hr
    rcases hm with hm | hm
    · exact h8 c hm
    · exact h9 c hm
  · rcases h1 with h1 | h1 <;> simp [h1]

/-- The serialize-then-reparse round trip for canonical record lists. -/
theorem parseRecords_serializeRecs {rs : List (Chars × Chars)}
    (h : ∀ r ∈ rs, CanonRecord r) :
    parseRecords (serializeRecs rs) = rs := by
  rw [parseRecords, normalizeDashes_serializeRecs h, splitlines_serializeRecs h]
  cases rs with
  | nil => rfl
  | cons r rs' =>
      rw [List.map_cons, runLines, stepLine_recLine initPState (h r (by simp))]
      have hrest := runLines_recLines (fun r hr => h r (List.mem_cons_of_mem _ hr)) [] r.1 r.2
        (by simpa using h r (by simp))
      simp only [initPState, Option.isSome_none, Bool.false_eq_true, if_false] at *
      rw [hrest]
      simp

/-! ## Blank input -/

theorem parseRecords_ws {text : Chars} (h : ∀ c ∈ text, isWSChar c = true) :
    parseRecords text = [] := by
  rw [parseRecords]
  have hlines : ∀ l ∈ (splitlines (normalizeDashes text)).map rstripL, stripL l = [] := by
    intro l hl
    obtain ⟨l0, hl0, hrl⟩ := List.mem_map.mp hl
    apply stripL_eq_nil_of_ws
    intro c hc
    rw [← hrl] at hc
    exact mem_normalizeDashes_ws h c (mem_splitlines hl0 c (mem_rstripL c hc))
  rw [runLines_blank hlines]
  rfl

/-! ## Every record is trimmed -/

theorem trimmed_flushTerm (t : Chars) : stripL (flushTerm t) = flushTerm t := by
  rw [flushTerm]
  exact stripL_collapseSpaces_of (stripL_idem _)

theorem trimmed_flushDef (d : Option Chars) : stripL (flushDef d) = flushDef d := by
  rw [flushDef]
  exact stripL_collapseSpaces_of (stripL_idem _)

theorem mem_flushSt_records {st : PState} {r : Chars × Chars}
    (hr : r ∈ (flushSt st).records) :
    r ∈ st.records ∨ ∃ t d, r = (flushTerm t, flushDef d) := by
  rw [flushSt] at hr
  cases hT : st.curTerm with
  | none => rw [hT] at hr; exact Or.inl hr
  | some t =>
      rw [hT] at hr
      simp only at hr
      rcases List.mem_append.mp hr with h1 | h1
      · exact Or.inl h1
      · simp at h1
        exact Or.inr ⟨t, st.curDef, h1⟩

theorem mem_stepLine_records {st : PState} {raw : Chars} {r : Chars × Chars}
    (hr : r ∈ (stepLine st raw).records) :
    r ∈ st.records ∨ ∃ t d, r = (flushTerm t, flushDef d) := by
  simp only [stepLine] at hr
  repeat' split at hr
  all_goals first
    | exact Or.inl hr
    | exact mem_flushSt_records hr

theorem runLines_records_inv {P : Chars × Chars → Prop}
    (hP : ∀ t d, P (flushTerm t, flushDef d)) :
    ∀ (ls : List Chars) (st : PState), (∀ r ∈ st.records, P r) →
      ∀ r ∈ (flushSt (runLines st ls)).records, P r := by
  intro ls
  induction ls with
  | nil =>
      intro st hst r hr
      rcases mem_flushSt_records hr with h1 | h1
      · exact hst r h1
      · obtain ⟨t, d, h2⟩ := h1
        rw [h2]; exact hP t d
  | cons l ls ih =>
      intro st hst r hr
      rw [runLines] at hr
      apply ih (stepLine st l) _ r hr
      intro r' hr'
      rcases mem_stepLine_records hr' with h1 | h1
      · exact hst r' h1
      · obtain ⟨t, d, h2⟩ := h1
        rw [h2]; exact hP t d

theorem parseRecords_trimmed (text : Chars) :
    ∀ r ∈ parseRecords text, stripL r.1 = r.1 ∧ stripL r.2 = r.2 := by
  rw [parseRecords]
  exact runLines_records_inv
    (fun t d => ⟨trimmed_flushTerm t, trimmed_flushDef d⟩) _ initPState
    (by intro r hr; simp [initPState] at hr)

/-! ## Item-start decision of the application's parser on open records -/

theorem stepLine_open_iff (st : PState) {raw line : Chars} (hline : stripL raw = line)
    (hne : line ≠ []) (hmk : isNewRowMarker line = false) (ht : st.curTerm.isSome = true) :
    ((stepLine st raw).records.length = st.records.length + 1 ↔ splitNeeded line = true) ∧
    (splitNeeded line = false → (stepLine st raw).records = st.records) := by
  cases hsep : splitNeeded line with
  | true =>
      rw [stepLine_sep st hline hne hmk hsep]
      refine ⟨⟨fun _ => rfl, fun _ => ?_⟩, fun hc => ?_⟩
      · simp only [ht, if_true]
        obtain ⟨t, hT⟩ := Option.isSome_iff_exists.mp ht
        rw [flushSt_some hT]
        simp
      · exact absurd hc (by decide)
  | false =>
      rw [stepLine_cont st hline hne hmk hsep ht]
      refine ⟨?_, fun _ => rfl⟩
      constructor
      · intro hcon
        simp at hcon
      · intro hc
        exact absurd hc (by decide)

/-! ## Lemmas about the accumulator of `fd_parsing.py` -/

theorem fdFlush_some {st : FState} {t : Chars} (h : st.curTerm = some t) :
    fdFlush st = ⟨st.records ++ [(flushTerm t, fdFlushDef st.curParts)], none, []⟩ := by
  rw [fdFlush, h]

theorem fdFirstSepIndex_tab {l : Chars} {i : Nat}
    (h : findIdxFrom (fun c => c = '\t') l = some i) : fdFirstSepIndex l = some i := by
  unfold fdFirstSepIndex
  rw [h]

theorem dictMatch_none_of_no_lparen {l : Chars}
    (h : findIdxFrom (fun c => c = '(') l = none) : dictMatch l = none := by
  unfold dictMatch
  rw [h]

theorem looksLikeItemStart_of {line : Chars} {i : Nat} (hstrip : stripL line = line)
    (hne : line ≠ []) (hsep : fdFirstSepIndex line = some i)
    (hzone : i ≤ max 40 (line.length / 3)) : looksLikeItemStart line = true := by
  rw [looksLikeItemStart]
  simp only [hstrip, if_neg hne, hsep]
  split
  · rfl
  · simpa using hzone

theorem fdStepLine_item (st : FState) {raw line : Chars} (hline : stripL raw = line)
    (hne : line ≠ [])
    (hb : matchBullet line = none) (hn : matchNumbered line = none)
    (hitem : looksLikeItemStart line = true) :
    fdStepLine st raw = ⟨(if st.curTerm.isSome then fdFlush st else st).records,
      some (fdSplitTermDefLine line).1,
      if (fdSplitTermDefLine line).2 = [] then [] else [(fdSplitTermDefLine line).2]⟩ := by
  rw [fdStepLine]
  simp only [hline, if_neg hne, hb, hn, hitem, Option.getD_some, Option.getD_none, if_true]

theorem fdSplitTermDefLine_sep {l : Chars} {i : Nat} (hd : dictMatch l = none)
    (hs : fdFirstSepIndex l = some i) :
    fdSplitTermDefLine l =
      (stripL (lstripDashes (stripL (l.take i))), stripL (l.drop (i + 1))) := by
  unfold fdSplitTermDefLine
  rw [hd, hs]

theorem mem_normalizeDashes_noBreak {l : Chars} (h : ∀ c ∈ l, isBreakChar c = false) :
    ∀ c ∈ normalizeDashes l, isBreakChar c = false := by
  intro c hc
  rw [normalizeDashes] at hc
  obtain ⟨a, ha, hfa⟩ := List.mem_map.mp hc
  by_cases hd : a = '–'
  · rw [if_pos hd] at hfa
    rw [← hfa]
    rfl
  · rw [if_neg hd] at hfa
    rw [← hfa]
    exact h a ha

theorem fdFlushDef_single {d : Chars} (hd : stripL d = d) :
    fdFlushDef [d] = collapseSpaces d := by
  by_cases hdn : d = []
  · subst hdn
    rfl
  · rw [fdFlushDef]
    have hfil : List.filter (fun p => !(stripL p).isEmpty) [d] = [d] := by
      have : (stripL d).isEmpty = false := by
        rw [hd]
        cases d with
        | nil => exact absurd rfl hdn
        | cons a m => rfl
      simp [List.filter, this]
    rw [hfil]
    have hone : List.intercalate [' '] [d] = d := by simp [List.intercalate]
    rw [hone]
    exact stripL_collapseSpaces_of hd

/-- On a single-line input whose stripped content carries a tab inside the
item-start zone, no parenthesis, no bullet/numbered marker, and whose
term half does not lead with a dash after trimming, the parser of
`parsing.py` and the parser of `fd_parsing.py` produce the same records. -/
theorem fd_agree_single_tab_line (s : Chars)
    (hnb : ∀ ch ∈ s, isBreakChar ch = false)
    {line : Chars} (hline : line = stripL (rstripL (normalizeDashes s)))
    (hne : line ≠ [])
    (hb : matchBullet line = none) (hn : matchNumbered line = none)
    (hpar : ∀ ch ∈ line, ch ≠ '(')
    {i : Nat} (hi : findIdxFrom (fun ch => ch = '\t') line = some i)
    (hzone : i ≤ max 40 (line.length / 3))
    (hdash : ∀ ch, (stripL (line.take i)).head? = some ch → isDashChar ch = false) :
    parseRecords s = fdParseRecords s := by
  have hs : s ≠ [] := by
    intro h
    apply hne
    rw [hline, h]
    rfl
  have hnsne : normalizeDashes s ≠ [] := by
    simpa [normalizeDashes] using hs
  have hnsb : ∀ c ∈ normalizeDashes s, isBreakChar c = false :=
    mem_normalizeDashes_noBreak hnb
  have hsplitl : splitlines (normalizeDashes s) = [normalizeDashes s] :=
    splitlines_single hnsb hnsne
  have hstripline : stripL (rstripL (normalizeDashes s)) = line := hline.symm
  have hmk : isNewRowMarker line = false := by
    rw [isNewRowMarker, hb, hn]
    rfl
  have hsep : splitNeeded line = true := by
    rw [splitNeeded, hi]
    rfl
  have hlinestrip : stripL line = line := by
    rw [hline]
    exact stripL_idem _
  have hdict : dictMatch line = none :=
    dictMatch_none_of_no_lparen
      (findIdxFrom_eq_none (fun c hc => by simp [hpar c hc]))
  have hfdsep : fdFirstSepIndex line = some i := fdFirstSepIndex_tab hi
  have hitem : looksLikeItemStart line = true :=
    looksLikeItemStart_of hlinestrip hne hfdsep hzone
  -- the term half
  have ht0 : stripL (lstripDashes (stripL (line.take i))) = stripL (line.take i) := by
    rw [lstripDashes_eq_self hdash, stripL_idem]
  -- both parsers reduce to a single record
  rw [parseRecords, fdParseRecords, hsplitl, List.map_cons, List.map_nil,
    runLines, runLines, fdRunLines, fdRunLines,
    stepLine_sep initPState hstripline hne hmk hsep,
    fdStepLine_item initFState hstripline hne hb hn hitem,
    splitTermDefPy_tab hi, fdSplitTermDefLine_sep hdict hfdsep]
  simp only [initPState, initFState, Option.isSome_none, Bool.false_eq_true, if_false]
  rw [flushSt_some rfl, fdFlush_some rfl]
  simp only [List.nil_append]
  -- fronts agree
  have hfront : flushTerm (stripL (lstripDashes (stripL (line.take i))))
      = flushTerm (line.take i) := by
    rw [ht0, flushTerm, flushTerm, stripL_idem,
      lstripDashes_eq_self hdash, stripL_idem]
  -- backs agree
  have hback : fdFlushDef (if stripL (line.drop (i + 1)) = [] then []
        else [stripL (line.drop (i + 1))])
      = flushDef (some (line.drop (i + 1))) := by
    by_cases hd' : stripL (line.drop (i + 1)) = []
    · rw [if_pos hd', flushDef]
      simp only [Option.getD_some]
      rw [hd']
      rfl
    · rw [if_neg hd', flushDef]
      simp only [Option.getD_some]
      rw [fdFlushDef_single (stripL_idem _)]
  rw [hfront, ← hback]

/-! ## The claims -/

/-- C1: for every input string `parse_free_text` terminates and returns a
(records, warnings) pair — totality holds by construction of the embedding,
which is a total Lean function — and on the empty string, on `"   \n\n"`,
and more generally on any input consisting only of whitespace, it returns
`([], [])`. -/
theorem C1_total_and_blank :
    parse_free_text "" = ([], []) ∧ parse_free_text "   \n\n" = ([], []) ∧
    ∀ text : String, (∀ c ∈ text.data, isWSChar c = true) →
      parse_free_text text = ([], []) := by
  refine ⟨by decide, by decide, ?_⟩
  intro text h
  simp only [parse_free_text]
  rw [parseRecords_ws h]
  rfl

theorem C1_total_and_blank_witness :
    (∀ c ∈ (" \n\t".data), isWSChar c = true) ∧ parse_free_text " \n\t" = ([], []) :=
  ⟨by decide, C1_total_and_blank.2.2 " \n\t" (by decide)⟩

/-- C2 (counterexample): in `parsing.py` there is no term zone.  In the input
below, the second line's only separator is a colon at index 45, beyond the
term zone `max(40, 48 // 3) = 40`, so by the claim it should continue the
open record; the code starts a new record instead, yielding two records. -/
theorem C2_term_zone_counterexample :
    parse_free_text "a: b\nwwwwwwwwwwwwwwwwwwwwwwwwwwwwwwwwwwwwwwwwwwwww: d"
      = ([("a", "b"), ("wwwwwwwwwwwwwwwwwwwwwwwwwwwwwwwwwwwwwwwwwwwww", "d")], []) ∧
    firstColonOutsideParens ("wwwwwwwwwwwwwwwwwwwwwwwwwwwwwwwwwwwwwwwwwwwww: d".data) = some 45 ∧
    ¬ (45 ≤ max 40 (("wwwwwwwwwwwwwwwwwwwwwwwwwwwwwwwwwwwwwwwwwwwww: d".data).length / 3)) :=
  ⟨by decide, by decide, by decide⟩

/-- C2 (amended): in `parsing.py`, while a record is open, a non-blank line
that carries no bullet/numbered marker starts a new record (flushing the open
one, so the record count grows by one) if and only if the Separator Resolver
finds a split point anywhere in the line — there is no term zone; when no
separator occurs the line continues the open record and the records are
unchanged. -/
theorem C2_item_start_iff_separator (st : PState) (raw line : Chars)
    (hline : stripL raw = line) (hne : line ≠ [])
    (hmk : isNewRowMarker line = false) (ht : st.curTerm.isSome = true) :
    ((stepLine st raw).records.length = st.records.length + 1 ↔
      splitNeeded line = true) ∧
    (splitNeeded line = false → (stepLine st raw).records = st.records) :=
  stepLine_open_iff st hline hne hmk ht

theorem C2_item_start_iff_separator_witness :
    ((stepLine ⟨[], some ['a'], some ['b']⟩ ("x: y".data)).records.length =
        ([] : List (Chars × Chars)).length + 1 ↔ splitNeeded ("x: y".data) = true) ∧
    (splitNeeded ("x: y".data) = false →
      (stepLine ⟨[], some ['a'], some ['b']⟩ ("x: y".data)).records = []) :=
  C2_item_start_iff_separator ⟨[], some ['a'], some ['b']⟩ ("x: y".data) ("x: y".data)
    (by decide) (by decide) (by decide) (by decide)

/-- C3 (counterexample): the dictionary-pattern rule is not applied before the
colon rule.  On `"a (b) c: d"` the dictionary pattern matches (it would give
front `"a (b)"`, back `"c: d"`), but the parser splits at the colon instead,
producing front `"a (b) c"`, back `"d"`. -/
theorem C3_dict_first_counterexample :
    (dictMatch ("a (b) c: d".data)).isSome = true ∧
    parse_free_text "a (b) c: d" = ([("a (b) c", "d")], []) ∧
    ([("a (b) c", "d")] : List (String × String)) ≠ [("a (b)", "c: d")] :=
  ⟨by decide, by decide, by decide⟩

/-- C3 (amended): in `_split_term_def` the dictionary pattern is applied
last, after the tab, colon and dash rules — whenever a tab is absent and a
colon outside parentheses exists, the line is split at that colon even if the
dictionary pattern also matches.  The spec's example nevertheless holds:
`"abhor (v.) : to hate, detest"` yields front `"abhor (v.)"` and back
`"to hate, detest"`, via the colon rule. -/
theorem C3_colon_before_dict :
    parse_free_text "abhor (v.) : to hate, detest"
      = ([("abhor (v.)", "to hate, detest")], []) ∧
    ∀ (l : Chars) (ci : Nat), findIdxFrom (fun c => c = '\t') l = none →
      firstColonOutsideParens l = some ci →
      splitTermDefPy l = (l.take ci, l.drop (ci + 1)) :=
  ⟨by decide, fun _ _ h1 h2 => splitTermDefPy_colon h1 h2⟩

theorem C3_colon_before_dict_witness :
    splitTermDefPy ("a (b) c: d".data)
      = (("a (b) c: d".data).take 7, ("a (b) c: d".data).drop 8) :=
  C3_colon_before_dict.2 ("a (b) c: d".data) 7 (by decide) (by decide)

/-- C4 (counterexample): the front is only cleansed of leading dash
artifacts, not of leading colons.  Parsing `": a\tb"` (tab split) leaves the
front as `": a"` — the claimed colon-artifact stripping would give `"a"`. -/
theorem C4_colon_artifact_counterexample :
    parse_free_text ": a\tb" = ([(": a", "b")], []) ∧ (": a" : String) ≠ "a" :=
  ⟨by decide, by decide⟩

/-- C4 (amended): the split character is consumed and both halves are
trimmed — every record returned by the parser has strip-fixed front and
back — and the front has leading DASH artifacts stripped (leading colons are
not stripped).  The spec's example holds: the numbered marker of
`"1) photosynthesis — process by which plants make food"` is stripped and
the en/em dash split yields the clean front and back, and a leading dash
artifact (`"-a\tb"`) is removed from the front. -/
theorem C4_split_cleanup :
    parse_free_text "1) photosynthesis — process by which plants make food"
      = ([("photosynthesis", "process by which plants make food")], []) ∧
    parse_free_text "-a\tb" = ([("a", "b")], []) ∧
    ∀ (text : Chars) (r : Chars × Chars), r ∈ parseRecords text →
      stripL r.1 = r.1 ∧ stripL r.2 = r.2 :=
  ⟨by decide, by decide, fun text r hr => parseRecords_trimmed text r hr⟩

theorem C4_split_cleanup_witness :
    stripL ("x".data) = "x".data ∧ stripL ("y".data) = "y".data :=
  C4_split_cleanup.2.2 ("x\ty".data) ("x".data, "y".data) (by decide)

/-- C5: a hyphen embedded inside a word is never a split point of the
en/em-dash-or-spaced-hyphen rule: any index it returns carries either an
en/em dash or a whitespace--hyphen--whitespace pattern.  In particular
`"well-known: famous"` splits only at the colon, yielding front
`"well-known"` and back `"famous"`. -/
theorem C5_embedded_hyphen_never_splits :
    parse_free_text "well-known: famous" = ([("well-known", "famous")], []) ∧
    ∀ (l : Chars) (i : Nat), firstEnEmOrSpacedHyphen l = some i →
      (∃ c, l.get? i = some c ∧ isEnEmChar c = true) ∨
      (∃ a b c, l.get? i = some a ∧ l.get? (i + 1) = some b ∧
        l.get? (i + 2) = some c ∧ isWSChar a = true ∧ b = '-' ∧ isWSChar c = true) := by
  refine ⟨by decide, ?_⟩
  intro l i h
  rw [firstEnEmOrSpacedHyphen] at h
  cases he : findIdxFrom isEnEmChar l with
  | some j =>
      rw [he] at h
      simp only [Option.some.injEq] at h
      left
      exact findIdxFrom_spec (h ▸ he)
  | none =>
      rw [he] at h
      right
      exact firstSpacedHyphen_spec h

theorem C5_embedded_hyphen_never_splits_witness :
    (∃ c, (" - x".data).get? 0 = some c ∧ isEnEmChar c = true) ∨
    (∃ a b c, (" - x".data).get? 0 = some a ∧ (" - x".data).get? 1 = some b ∧
      (" - x".data).get? 2 = some c ∧ isWSChar a = true ∧ b = '-' ∧
      isWSChar c = true) :=
  C5_embedded_hyphen_never_splits.2 (" - x".data) 0 (by decide)

/-- C6 (counterexample): when both an en/em dash and a spaced hyphen are
present, the split is NOT at the leftmost one.  In `"a - b — c"` the spaced
hyphen match starts at index 1 and the em dash sits at index 6, yet the
parser splits at the em dash, yielding `("a - b", "c")` instead of the
leftmost-split `("a", "b — c")`. -/
theorem C6_leftmost_counterexample :
    parse_free_text "a - b — c" = ([("a - b", "c")], []) ∧
    firstSpacedHyphen ("a - b — c".data) = some 1 ∧
    findIdxFrom isEnEmChar ("a - b — c".data) = some 6 ∧
    ([("a - b", "c")] : List (String × String)) ≠ [("a", "b — c")] :=
  ⟨by decide, by decide, by decide, by decide⟩

/-- C6 (amended): when no tab and no colon outside parentheses occur, a line
containing an en/em dash is split at the first en/em dash regardless of
where any spaced hyphen occurs; the spaced hyphen is used only when no en/em
dash is present. -/
theorem C6_enem_preferred (l : Chars) (i : Nat)
    (htab : findIdxFrom (fun c => c = '\t') l = none)
    (hcol : firstColonOutsideParens l = none)
    (henem : findIdxFrom isEnEmChar l = some i) :
    splitTermDefPy l = (l.take i, l.drop (i + 1)) :=
  splitTermDefPy_enem htab hcol henem

theorem C6_enem_preferred_witness :
    splitTermDefPy ("a - b — c".data)
      = (("a - b — c".data).take 6, ("a - b — c".data).drop 7) :=
  C6_enem_preferred ("a - b — c".data) 6 (by decide) (by decide) (by decide)

/-- C7 (counterexample): the round trip fails on records with an empty
front.  `parse(": x")` yields the record `("", "x")`; its serialization
`"\tx"` re-parses to `("x", "")` — a different record list. -/
theorem C7_roundtrip_counterexample :
    parseRecords (": x".data) = [([], "x".data)] ∧
    serializeRecs [([], "x".data)] = "\tx".data ∧
    parseRecords ("\tx".data) = [("x".data, [])] ∧
    ([(([] : Chars), "x".data)] : List (Chars × Chars)) ≠ [("x".data, [])] :=
  ⟨by decide, by decide, by decide, by decide⟩

/-- C7 (amended): the round trip holds for canonical record lists: every
record with non-empty, trimmed, space-collapsed, dash-normalized,
line-break-free halves, a tab-free front that does not start with a dash,
and a serialized line that does not look like a bullet/numbered marker.
Serializing such records as `"{front}\t{back}"` lines and re-parsing
returns exactly the same records.  (Parse results can violate these
conditions — empty fronts or backs, multi-paragraph backs — and then
re-parsing can differ, as the counterexample shows.) -/
theorem C7_roundtrip_canonical (rs : List (Chars × Chars))
    (h : ∀ r ∈ rs, CanonRecord r) :
    parseRecords (serializeRecs rs) = rs :=
  parseRecords_serializeRecs h

theorem C7_roundtrip_canonical_witness :
    parseRecords (serializeRecs [("ab".data, "cd".data), ("x".data, "y z".data)])
      = [("ab".data, "cd".data), ("x".data, "y z".data)] :=
  C7_roundtrip_canonical [("ab".data, "cd".data), ("x".data, "y z".data)] (by decide)

/-- C8: for every input, the warnings list is at most as long as the records
list, and every warning is the canonical message for some 1-based row index
within `[1, len(records)]` — warnings are indexed against records, never
against input line numbers. -/
theorem C8_warnings_bounded (text : String) :
    (parse_free_text text).2.length ≤ (parse_free_text text).1.length ∧
    ∀ w ∈ (parse_free_text text).2, ∃ i, 1 ≤ i ∧ i ≤ (parse_free_text text).1.length ∧
      (w = "Row " ++ toString i ++ " has an empty Front field." ∨
       w = "Row " ++ toString i ++ " has an empty Back field.") := by
  simp only [parse_free_text]
  constructor
  · rw [List.length_map]
    exact warningsGo_length_le 1 _
  · intro w hw
    obtain ⟨k, hk, h2⟩ := warningsGo_mem 1 _ hw
    refine ⟨1 + k, by omega, ?_, h2⟩
    rw [List.length_map]
    omega

theorem C8_warnings_bounded_witness :
    (parse_free_text ":").2.length ≤ (parse_free_text ":").1.length ∧
    ∃ i, 1 ≤ i ∧ i ≤ (parse_free_text ":").1.length ∧
      (("Row 1 has an empty Front field." : String)
          = "Row " ++ toString i ++ " has an empty Front field." ∨
       ("Row 1 has an empty Front field." : String)
          = "Row " ++ toString i ++ " has an empty Back field.") :=
  ⟨(C8_warnings_bounded ":").1,
   (C8_warnings_bounded ":").2 "Row 1 has an empty Front field." (by decide)⟩

/-- C9: a blank line reaching an open record appends the paragraph-break
placeholder `"\n\n"` to the open definition, and at flush time it is
rendered in the back text as a double newline rather than dropped or
space-joined: `parse("a: x\n\ny")` returns the single record
`("a", "x\n\n y")`, whose back contains the paragraph break. -/
theorem C9_paragraph_break :
    (∀ (st : PState) (d : Chars) (raw : Chars), st.curDef = some d →
      stripL raw = [] →
      stepLine st raw = ⟨st.records, st.curTerm, some (d ++ ['\n', '\n'])⟩) ∧
    parse_free_text "a: x\n\ny" = ([("a", "x\n\n y")], []) := by
  refine ⟨?_, by decide⟩
  intro st d raw hd hws
  rw [stepLine_blank hws, hd]

theorem C9_paragraph_break_witness :
    stepLine ⟨[], some ['a'], some ['x']⟩ [] = ⟨[], some ['a'], some ['x', '\n', '\n']⟩ :=
  C9_paragraph_break.1 ⟨[], some ['a'], some ['x']⟩ ['x'] [] rfl rfl

/-- C10 (counterexample): the two parser implementations disagree.  On
`"well-known: famous"`, `parsing.py` splits at the colon and returns
`("well-known", "famous")` while `fd_parsing.py` splits at the embedded
hyphen (its `first_sep_index` considers any plain hyphen) and returns
`("well", "known: famous")`. -/
theorem C10_parsers_differ :
    parse_free_text "well-known: famous" ≠ fd_parse_free_text "well-known: famous"
      ∧ fd_parse_free_text "well-known: famous" = ([("well", "known: famous")], []) :=
  ⟨by decide, by decide⟩

/-- C10 (amended): the two implementations agree on every single-line input
whose stripped content has a tab within the `fd_parsing.py` item-start zone,
no parenthesis (so the dictionary pattern cannot fire), no bullet/numbered
marker, and a term half that does not lead with a dash after trimming. -/
theorem C10_parsers_agree_tab_line (s : Chars)
    (hnb : ∀ ch ∈ s, isBreakChar ch = false)
    (line : Chars) (hline : line = stripL (rstripL (normalizeDashes s)))
    (hne : line ≠ [])
    (hb : matchBullet line = none) (hn : matchNumbered line = none)
    (hpar : ∀ ch ∈ line, ch ≠ '(')
    (i : Nat) (hi : findIdxFrom (fun ch => ch = '\t') line = some i)
    (hzone : i ≤ max 40 (line.length / 3))
    (hdash : ∀ ch, (stripL (line.take i)).head? = some ch → isDashChar ch = false) :
    parseRecords s = fdParseRecords s :=
  fd_agree_single_tab_line s hnb hline hne hb hn hpar hi hzone hdash

theorem C10_parsers_agree_tab_line_witness :
    parseRecords ("ab\tcd".data) = fdParseRecords ("ab\tcd".data) :=
  C10_parsers_agree_tab_line ("ab\tcd".data) (by decide) ("ab\tcd".data) (by decide)
    (by decide) (by decide) (by decide) (by decide) 2 (by decide) (by decide) (by decide)

end FinalDecky

